import Mathlib

/-!
Verification of the affected-crate computation of the rust-affected tool.

The development shallowly embeds the library core (src/lib.rs): the exclusion
test `is_excluded`, the force-trigger matcher `check_force_triggers`, and the
main entry point `compute_affected`.  Strings are Lean strings, paths are
interpreted through their `/`-separated component lists as Rust's
`Path::components` does, and the guppy package graph is modelled as the list of
workspace member packages, the list of remaining packages of the dependency
graph, and the set of "depends on" edges between package ids.  The guppy
reverse/forward resolvers are modelled as saturation of the edge relation, and
the globset crate's compiled matchers are a parameter (`GlobLib`) together with
one concrete instantiation following the specification's description of the
pattern language.  Panics of the Rust code are modelled with `Except`.
-/

namespace RustAffected

/-- Byte-for-byte lexicographic comparison of character lists, mirroring the
`Ord` instance Rust's `Vec::sort` uses on `String` (UTF-8 byte order agrees
with code-point order). -/
def lexLe : List Char → List Char → Bool
  | [], _ => true
  | _ :: _, [] => false
  | a :: as, b :: bs => decide (a < b) || (a == b && lexLe as bs)

/-- Case-sensitive lexicographic order on strings. -/
def strLeB (a b : String) : Bool :=
  lexLe a.data b.data

/-- Ascending stable sort by case-sensitive lexicographic order; model of
`Vec::<String>::sort`. -/
def sortNames (l : List String) : List String :=
  List.insertionSort (fun a b => strLeB a b = true) l

/-- Split a character list at every occurrence of `c`; the separators are
dropped and empty chunks are kept. -/
def splitOnChar (c : Char) : List Char → List (List Char)
  | [] => [[]]
  | a :: rest =>
    match splitOnChar c rest with
    | [] => [[a]]
    | g :: gs => if a == c then [] :: g :: gs else (a :: g) :: gs

/-- Whether the string `s` starts with the string `pre` (byte-wise). -/
def strStartsWith (s pre : String) : Bool :=
  pre.data.isPrefixOf s.data

/-- Whether the string contains a `/` anywhere; model of Rust's
`str::contains('/')`. -/
def strContainsSlash (s : String) : Bool :=
  s.data.contains '/'

/-- Whether the string ends with `/`; model of Rust's `str::ends_with('/')`. -/
def strEndsWithSlash (s : String) : Bool :=
  s.data.getLast? == some '/'

/-- Strip exactly one trailing `/` when present; model of
`str::strip_suffix('/').unwrap_or(..)` in `is_excluded`. -/
def stripTrailingSlash (s : String) : String :=
  if strEndsWithSlash s then String.mk s.data.dropLast else s

/-- The component list of a path string, as produced by Rust's
`Path::components` on Unix: split on `/`, drop empty chunks and interior `.`
chunks, keep a root component for absolute paths and a leading `.` component
when the path starts with it. -/
def pathComponents (s : String) : List String :=
  let parts := ((splitOnChar '/' s.data).map String.mk).filter
    (fun comp => !(comp == "") && !(comp == "."))
  if strStartsWith s "/" then "/" :: parts
  else if s == "." || strStartsWith s "./" then "." :: parts
  else parts

/-- Model of `Path::new(f).starts_with(dir)`: the component sequence of `f`
starts with the component sequence of `dir`. -/
def belongsToDir (dir f : String) : Bool :=
  (pathComponents dir).isPrefixOf (pathComponents f)

/-- One package node of the guppy graph: unique id, crate name, the directory
of its manifest after stripping the workspace root (`relative_dir` in
src/lib.rs), and whether any of its build targets is a binary target. -/
structure Package where
  pid : Nat
  name : String
  dir : String
  hasBinary : Bool
deriving DecidableEq, Repr

/-- The guppy `PackageGraph`: workspace member packages, the remaining packages
of the resolved dependency graph, and the edge list where `(a, b)` means
package `a` depends on package `b`. -/
structure Graph where
  workspace : List Package
  others : List Package
  deps : List (Nat × Nat)
deriving DecidableEq, Repr

/-- All packages of the graph. -/
def Graph.allPackages (g : Graph) : List Package :=
  g.workspace ++ g.others

/-- The ids of all packages of the graph. -/
def allIds (g : Graph) : List Nat :=
  g.allPackages.map Package.pid

/-- Model of guppy's `Workspace::contains_name`: some workspace member has the
given name. -/
def contains_name (g : Graph) (n : String) : Bool :=
  g.workspace.any (fun pkg => pkg.name == n)

/-- Model of `PackageGraph::metadata`: look a package up by id. -/
def metadata (g : Graph) (i : Nat) : Option Package :=
  g.allPackages.find? (fun pkg => pkg.pid == i)

/-- The Prop-level dependency relation: `a` depends directly on `b`. -/
def dependsOn (g : Graph) (a b : Nat) : Prop :=
  (a, b) ∈ g.deps

/-- Graph well-formedness: every dependency edge joins ids of packages present
in the graph (guppy edges always join graph nodes). -/
def edgesClosed (g : Graph) : Bool :=
  g.deps.all (fun e => (allIds g).contains e.1 && (allIds g).contains e.2)

/-- Whether no package outside the workspace shares its name with a workspace
member.  Names are only guaranteed unique inside the workspace, so this can
genuinely fail on a cargo graph (e.g. a registry crate with the same name as a
member). -/
def namesSeparated (g : Graph) : Bool :=
  g.others.all (fun o => !contains_name g o.name)

/-- One saturation step: add every id of `univ` that is not yet in `s` and is
related to the current set by `rel`. -/
def expandOnce (univ : List Nat) (rel : Nat → List Nat → Bool) (s : List Nat) : List Nat :=
  s ++ univ.filter (fun p => !s.contains p && rel p s)

/-- Iterate a function `n` times. -/
def iterApply (f : α → α) : Nat → α → α
  | 0, x => x
  | n + 1, x => iterApply f n (f x)

/-- Saturate `seeds` under `rel` inside `univ`; `univ.length` rounds always
reach the fixpoint. -/
def saturate (univ : List Nat) (rel : Nat → List Nat → Bool) (seeds : List Nat) : List Nat :=
  iterApply (expandOnce univ rel) univ.length seeds

/-- `p` has a dependency edge into the set `s`. -/
def depsOnAny (g : Graph) (p : Nat) (s : List Nat) : Bool :=
  g.deps.any (fun e => e.1 == p && s.contains e.2)

/-- Some member of `s` has a dependency edge onto `p`. -/
def depOfAny (g : Graph) (p : Nat) (s : List Nat) : Bool :=
  g.deps.any (fun e => s.contains e.1 && e.2 == p)

/-- Model of `graph.query_reverse(seeds).resolve()`: the seeds together with
every package that transitively depends on a seed. -/
def reverseClosure (g : Graph) (seeds : List Nat) : List Nat :=
  saturate (allIds g) (depsOnAny g) seeds

/-- Model of `graph.query_workspace().resolve()` when seeded with the workspace
ids: the seeds together with every package some seed transitively depends
on. -/
def forwardClosure (g : Graph) (seeds : List Nat) : List Nat :=
  saturate (allIds g) (depOfAny g) seeds

/-- The packages of the graph whose id belongs to a resolved id set; model of
`PackageSet::packages` (output order is irrelevant, the result lists are
sorted afterwards). -/
def membersOf (g : Graph) (ids : List Nat) : List Package :=
  g.allPackages.filter (fun pkg => ids.contains pkg.pid)

/-- The globset library boundary: compiling one glob pattern either fails
(`none`, globset's compile error, a panic in the Rust code) or yields a
matcher on path strings. -/
structure GlobLib where
  compile : String → Option (String → Bool)

/-- Fuelled matcher of one glob segment against one path segment: `*` matches
any run of characters inside the segment, `?` one character, all else
literally.  The fuel only serves termination and is always sufficient at the
chosen call sites. -/
def segMatchF : Nat → List Char → List Char → Bool
  | 0, _, _ => false
  | _ + 1, [], [] => true
  | _ + 1, [], _ :: _ => false
  | k + 1, c :: ps, ts =>
    if c == '*' then
      segMatchF k ps ts ||
        (match ts with
          | [] => false
          | _ :: ts2 => segMatchF k (c :: ps) ts2)
    else
      match ts with
      | [] => false
      | t :: ts2 => (c == '?' || c == t) && segMatchF k ps ts2

/-- Glob-segment match with sufficient fuel. -/
def segMatch (p t : List Char) : Bool :=
  segMatchF (p.length + t.length + 1) p t

/-- Fuelled matcher of a glob pattern, split into `/`-separated segments,
against a path split the same way; a `**` segment matches any number of path
segments. -/
def globSegsF : Nat → List (List Char) → List (List Char) → Bool
  | 0, _, _ => false
  | _ + 1, [], [] => true
  | _ + 1, [], _ :: _ => false
  | k + 1, p :: ps, ts =>
    if p == ['*', '*'] then
      globSegsF k ps ts ||
        (match ts with
          | [] => false
          | _ :: ts2 => globSegsF k (p :: ps) ts2)
    else
      match ts with
      | [] => false
      | t :: ts2 => segMatch p t && globSegsF k ps ts2

/-- Modelled from the spec: the matcher the external globset crate compiles a
glob pattern to (the crate itself is not part of this repository).  It
supports the single-segment wildcard, the recursive multi-segment wildcard and
the single-character wildcard, evaluated against the literal path string. -/
def globMatch (pattern path : String) : Bool :=
  let ps := splitOnChar '/' pattern.data
  let ts := splitOnChar '/' path.data
  globSegsF (ps.length + ts.length + 1) ps ts

/-- The glob library instantiation whose compilation always succeeds and
matches with `globMatch`. -/
def specGlobLib : GlobLib :=
  ⟨fun pattern => some (globMatch pattern)⟩

/-- A glob library on which every pattern fails to compile; used to exercise
the error path. -/
def failGlobLib : GlobLib :=
  ⟨fun _ => none⟩

/-- Trailing-slash normalization of a force-trigger pattern: `infra/` becomes
`infra/**` (src/lib.rs lines 48-52). -/
def normalizeTrigger (t : String) : String :=
  if strEndsWithSlash t then t ++ "**" else t

/-- Compile every normalized trigger pattern in order, failing on the first
malformed one with the offending normalized pattern (the panic in
`check_force_triggers`). -/
def compileTriggers (lib : GlobLib) : List String → Except String (List (String → Bool))
  | [] => .ok []
  | t :: ts =>
    match lib.compile (normalizeTrigger t) with
    | none => .error (normalizeTrigger t)
    | some m =>
      match compileTriggers lib ts with
      | .error p => .error p
      | .ok ms => .ok (m :: ms)

/-- Model of `check_force_triggers` (src/lib.rs lines 41-62): `false` outright
for an empty trigger list; otherwise compile all normalized patterns and test
whether any changed file matches any of them. -/
def check_force_triggers (lib : GlobLib) (changed_files force_triggers : List String) :
    Except String Bool :=
  if force_triggers.isEmpty then .ok false
  else
    match compileTriggers lib force_triggers with
    | .error p => .error p
    | .ok ms => .ok (changed_files.any (fun f => ms.any (fun m => m f)))

/-- The result record of `compute_affected`. -/
structure AffectedResult where
  force_all : Bool
  changed_crates : List String
  affected_library_members : List String
  affected_binary_members : List String
deriving DecidableEq, Repr

/-- Model of `is_excluded` (src/lib.rs lines 25-39): an entry containing `/`
is a path rule, matched (after stripping one trailing `/`) against the
package's relative directory exactly or as a directory-boundary prefix; an
entry without `/` is compared with the crate name. -/
def is_excluded (pkg_name : String) (pkg_relative_dir : String) (excluded : List String) : Bool :=
  excluded.any (fun entry =>
    if strContainsSlash entry then
      pkg_relative_dir == stripTrailingSlash entry ||
        strStartsWith pkg_relative_dir (stripTrailingSlash entry ++ "/")
    else
      pkg_name == entry)

/-- The ids of the workspace members one of whose changed files falls under
their directory (src/lib.rs lines 106-116). -/
def directIds (g : Graph) (changed_files : List String) : List Nat :=
  (g.workspace.filter (fun pkg => changed_files.any (fun f => belongsToDir pkg.dir f))).map
    Package.pid

/-- The resolved affected id set (src/lib.rs lines 118-125): the whole
workspace resolution under force-all, the reverse closure of the direct ids
otherwise. -/
def affectedIds (g : Graph) (force_all : Bool) (direct_ids : List Nat) : List Nat :=
  if force_all then forwardClosure g (g.workspace.map Package.pid)
  else reverseClosure g direct_ids

/-- The assembly of the three output lists (src/lib.rs lines 92-168), given
the already-computed force flag. -/
def assembleResult (g : Graph) (changed_files excluded : List String) (force_all : Bool) :
    AffectedResult :=
  let direct_ids := directIds g changed_files
  let affected_ids := affectedIds g force_all direct_ids
  let changed_crates := sortNames
    (((direct_ids.filterMap (fun i => metadata g i)).filter
      (fun pkg => contains_name g pkg.name && !is_excluded pkg.name pkg.dir excluded)).map
      Package.name)
  let affected_library_members := sortNames
    (((membersOf g affected_ids).filter
      (fun pkg => contains_name g pkg.name && !is_excluded pkg.name pkg.dir excluded)).map
      Package.name)
  let affected_binary_members := sortNames
    (((membersOf g affected_ids).filter
      (fun pkg => contains_name g pkg.name && !is_excluded pkg.name pkg.dir excluded &&
        pkg.hasBinary)).map
      Package.name)
  ⟨force_all, changed_crates, affected_library_members, affected_binary_members⟩

/-- Model of `compute_affected` (src/lib.rs lines 75-169).  An empty changed
file list short-circuits to the empty result; otherwise the force flag is
computed first (its panic surfaces as `.error`) and the result assembled from
it. -/
def compute_affected (lib : GlobLib) (g : Graph) (changed_files force_triggers excluded :
    List String) : Except String AffectedResult :=
  if changed_files.isEmpty then .ok ⟨false, [], [], []⟩
  else (check_force_triggers lib changed_files force_triggers).map
    (assembleResult g changed_files excluded)


/-- A two-member workspace: `appb` (binary) depends on `liba`. -/
def gChain : Graph :=
  { workspace := [⟨1, "liba", "liba", false⟩, ⟨2, "appb", "appb", true⟩]
    others := []
    deps := [(2, 1)] }

/-- A workspace whose only member `app` lives under `tools/app`, next to a
registry package of the same name that the member depends on. -/
def gShadow : Graph :=
  { workspace := [⟨1, "app", "tools/app", false⟩]
    others := [⟨2, "app", "reg/app", false⟩]
    deps := [(1, 2)] }

/-- A workspace member `app` depending on a registry package also named
`app`. -/
def gDup : Graph :=
  { workspace := [⟨1, "app", "app", false⟩]
    others := [⟨2, "app", "reg/app", false⟩]
    deps := [(1, 2)] }

/-- Member `w`, member `foo` under `tools/foo`, and a registry package also
named `foo` that depends on `w` (as a patched dependency can). -/
def gMono : Graph :=
  { workspace := [⟨1, "w", "w", false⟩, ⟨2, "foo", "tools/foo", false⟩]
    others := [⟨3, "foo", "reg/foo", false⟩]
    deps := [(3, 1)] }

/-- A workspace whose member `rootcrate` has its manifest in the workspace
root itself (empty relative directory). -/
def gRoot : Graph :=
  { workspace := [⟨1, "rootcrate", "", false⟩, ⟨2, "other", "other", false⟩]
    others := []
    deps := [] }

/-! ### Order lemmas for the sort comparator -/

theorem lexLe_total : ∀ a b : List Char, lexLe a b = true ∨ lexLe b a = true
  | [], _ => Or.inl rfl
  | _ :: _, [] => Or.inr rfl
  | a :: as, b :: bs => by
    rcases lt_trichotomy a b with h | h | h
    · left
      simp [lexLe, h]
    · subst h
      rcases lexLe_total as bs with h2 | h2 <;> simp [lexLe, h2]
    · right
      simp [lexLe, h]

theorem lexLe_trans : ∀ a b c : List Char,
    lexLe a b = true → lexLe b c = true → lexLe a c = true
  | [], _, _, _, _ => rfl
  | _ :: _, [], _, hab, _ => by simp [lexLe] at hab
  | _ :: _, _ :: _, [], _, hbc => by simp [lexLe] at hbc
  | a :: as, b :: bs, c :: cs, hab, hbc => by
    simp only [lexLe, Bool.or_eq_true, Bool.and_eq_true, decide_eq_true_eq,
      beq_iff_eq] at hab hbc ⊢
    rcases hab with hab | ⟨rfl, hab⟩
    · rcases hbc with hbc | ⟨rfl, _⟩
      · exact Or.inl (lt_trans hab hbc)
      · exact Or.inl hab
    · rcases hbc with hbc | ⟨rfl, hbc⟩
      · exact Or.inl hbc
      · exact Or.inr ⟨rfl, lexLe_trans as bs cs hab hbc⟩

instance : IsTotal String (fun a b => strLeB a b = true) :=
  ⟨fun a b => lexLe_total a.data b.data⟩

instance : IsTrans String (fun a b => strLeB a b = true) :=
  ⟨fun a b c => lexLe_trans a.data b.data c.data⟩

theorem mem_sortNames {l : List String} {x : String} : x ∈ sortNames l ↔ x ∈ l :=
  (List.perm_insertionSort _ l).mem_iff

theorem sortNames_sorted (l : List String) :
    List.Sorted (fun a b => strLeB a b = true) (sortNames l) :=
  List.sorted_insertionSort _ l

theorem sortNames_nodup {l : List String} (h : l.Nodup) : (sortNames l).Nodup :=
  ((List.perm_insertionSort _ l).nodup_iff).2 h

/-! ### Saturation lemmas -/

theorem contains_iff {l : List Nat} {x : Nat} : l.contains x = true ↔ x ∈ l := by
  simp

theorem contains_false {l : List Nat} {x : Nat} : l.contains x = false ↔ x ∉ l := by
  constructor
  · intro h hmem
    rw [contains_iff.2 hmem] at h
    cases h
  · intro h
    cases hc : l.contains x
    · rfl
    · exact absurd (contains_iff.1 hc) h

theorem mem_expandOnce_of_mem {u : List Nat} {rel : Nat → List Nat → Bool} {s : List Nat}
    {x : Nat} (h : x ∈ s) : x ∈ expandOnce u rel s :=
  List.mem_append_left _ h

theorem mem_iterApply_of_mem {u : List Nat} {rel : Nat → List Nat → Bool} :
    ∀ (n : Nat) {s : List Nat} {x : Nat}, x ∈ s → x ∈ iterApply (expandOnce u rel) n s
  | 0, _, _, h => h
  | n + 1, _, _, h => mem_iterApply_of_mem n (mem_expandOnce_of_mem h)

/-- A set closed under one saturation step. -/
def SatClosed (u : List Nat) (rel : Nat → List Nat → Bool) (s : List Nat) : Prop :=
  ∀ p, p ∈ u → rel p s = true → p ∈ s

theorem expandOnce_eq_self_iff {u : List Nat} {rel : Nat → List Nat → Bool} {s : List Nat} :
    expandOnce u rel s = s ↔ SatClosed u rel s := by
  constructor
  · intro h p hpu hrel
    by_contra hps
    have hmem : p ∈ u.filter (fun p => !s.contains p && rel p s) := by
      refine List.mem_filter.2 ⟨hpu, ?_⟩
      rw [Bool.and_eq_true, Bool.not_eq_true']
      exact ⟨contains_false.2 hps, hrel⟩
    have hnil : u.filter (fun p => !s.contains p && rel p s) = [] :=
      List.append_right_eq_self.1 h
    rw [hnil] at hmem
    exact absurd hmem (List.not_mem_nil p)
  · intro h
    have hnil : u.filter (fun p => !s.contains p && rel p s) = [] := by
      rw [List.filter_eq_nil_iff]
      intro p hp hcond
      rw [Bool.and_eq_true, Bool.not_eq_true'] at hcond
      exact absurd (h p hp hcond.2) (contains_false.1 hcond.1)
    rw [expandOnce, hnil, List.append_nil]

theorem iterApply_eq_self {f : α → α} {s : α} (h : f s = s) :
    ∀ n, iterApply f n s = s
  | 0 => rfl
  | n + 1 => by rw [iterApply, h, iterApply_eq_self h n]

/-- The number of distinct universe elements a set already holds. -/
def satMeasure (u : List Nat) (s : List Nat) : Nat :=
  (u.dedup.filter (fun p => s.contains p)).length

theorem satMeasure_le (u s : List Nat) : satMeasure u s ≤ u.dedup.length :=
  List.length_filter_le _ _

theorem satMeasure_lt_of_ne {u : List Nat} {rel : Nat → List Nat → Bool} {s : List Nat}
    (h : expandOnce u rel s ≠ s) : satMeasure u s < satMeasure u (expandOnce u rel s) := by
  set l := u.filter (fun p => !s.contains p && rel p s) with hl
  have hlne : l ≠ [] := by
    intro hnil
    exact h (by rw [expandOnce, ← hl, hnil, List.append_nil])
  obtain ⟨p, hp⟩ := List.exists_mem_of_ne_nil l hlne
  obtain ⟨hpu, hcond⟩ := List.mem_filter.1 hp
  rw [Bool.and_eq_true, Bool.not_eq_true'] at hcond
  have hps : p ∉ s := contains_false.1 hcond.1
  have hsub : List.Sublist (u.dedup.filter (fun q => s.contains q))
      (u.dedup.filter (fun q => (expandOnce u rel s).contains q)) := by
    apply List.monotone_filter_right
    intro a ha
    exact contains_iff.2 (mem_expandOnce_of_mem (contains_iff.1 ha))
  have hmem2 : p ∈ u.dedup.filter (fun q => (expandOnce u rel s).contains q) := by
    refine List.mem_filter.2 ⟨List.mem_dedup.2 hpu, contains_iff.2 ?_⟩
    exact List.mem_append_right _ hp
  have hne : u.dedup.filter (fun q => s.contains q) ≠
      u.dedup.filter (fun q => (expandOnce u rel s).contains q) := by
    intro heq
    rw [← heq] at hmem2
    exact hps (contains_iff.1 (List.mem_filter.1 hmem2).2)
  exact Nat.lt_of_le_of_ne hsub.length_le (fun hlen => hne (hsub.eq_of_length hlen))

theorem iterApply_fix {u : List Nat} {rel : Nat → List Nat → Bool} :
    ∀ (n : Nat) (s : List Nat), u.dedup.length ≤ satMeasure u s + n →
      expandOnce u rel (iterApply (expandOnce u rel) n s) = iterApply (expandOnce u rel) n s
  | 0, s, hb => by
    by_contra hne
    have h1 : satMeasure u s < satMeasure u (expandOnce u rel s) := satMeasure_lt_of_ne hne
    have h2 : satMeasure u (expandOnce u rel s) ≤ u.dedup.length := satMeasure_le u _
    omega
  | n + 1, s, hb => by
    by_cases h : expandOnce u rel s = s
    · rw [iterApply, h, iterApply_eq_self h n]
      exact h
    · have h1 : satMeasure u s < satMeasure u (expandOnce u rel s) := satMeasure_lt_of_ne h
      rw [iterApply]
      exact iterApply_fix n (expandOnce u rel s) (by omega)

theorem saturate_satClosed (u : List Nat) (rel : Nat → List Nat → Bool) (seeds : List Nat) :
    SatClosed u rel (saturate u rel seeds) := by
  have hb : u.dedup.length ≤ satMeasure u seeds + u.length :=
    le_trans (List.Sublist.length_le (List.dedup_sublist u)) (Nat.le_add_left _ _)
  exact expandOnce_eq_self_iff.1 (iterApply_fix u.length seeds hb)

theorem subset_saturate {u : List Nat} {rel : Nat → List Nat → Bool} {seeds : List Nat}
    {x : Nat} (h : x ∈ seeds) : x ∈ saturate u rel seeds :=
  mem_iterApply_of_mem _ h

theorem saturate_induction {u : List Nat} {rel : Nat → List Nat → Bool} (P : Nat → Prop)
    {seeds : List Nat} (hseed : ∀ x ∈ seeds, P x)
    (hstep : ∀ (s : List Nat) (p : Nat), (∀ y ∈ s, P y) → p ∈ u → rel p s = true → P p) :
    ∀ x ∈ saturate u rel seeds, P x := by
  suffices haux : ∀ (n : Nat) (s : List Nat), (∀ y ∈ s, P y) →
      ∀ x ∈ iterApply (expandOnce u rel) n s, P x from haux u.length seeds hseed
  intro n
  induction n with
  | zero => exact fun s hs x hx => hs x hx
  | succ n ih =>
    intro s hs x hx
    refine ih (expandOnce u rel s) ?_ x hx
    intro y hy
    rcases List.mem_append.1 hy with hy | hy
    · exact hs y hy
    · obtain ⟨hyu, hcond⟩ := List.mem_filter.1 hy
      rw [Bool.and_eq_true] at hcond
      exact hstep s y hs hyu hcond.2

/-! ### Characterization of the closures -/

theorem reverseClosure_sound {g : Graph} {seeds : List Nat} {x : Nat}
    (h : x ∈ reverseClosure g seeds) :
    ∃ q ∈ seeds, Relation.ReflTransGen (dependsOn g) x q := by
  refine saturate_induction (fun y => ∃ q ∈ seeds, Relation.ReflTransGen (dependsOn g) y q)
    ?_ ?_ x h
  · exact fun y hy => ⟨y, hy, Relation.ReflTransGen.refl⟩
  · intro s p hs hpu hrel
    obtain ⟨⟨e1, e2⟩, he, hcond⟩ := List.any_eq_true.1 hrel
    rw [Bool.and_eq_true] at hcond
    have h1 : e1 = p := by simpa using hcond.1
    have h2 : e2 ∈ s := contains_iff.1 hcond.2
    obtain ⟨q, hq, hpath⟩ := hs e2 h2
    subst h1
    exact ⟨q, hq, Relation.ReflTransGen.head he hpath⟩

theorem reverseClosure_complete {g : Graph} {seeds : List Nat} {p q : Nat}
    (hec : edgesClosed g = true) (hq : q ∈ seeds)
    (hpath : Relation.ReflTransGen (dependsOn g) p q) :
    p ∈ reverseClosure g seeds := by
  induction hpath using Relation.ReflTransGen.head_induction_on with
  | refl => exact subset_saturate hq
  | head hab hbc ih =>
    rename_i a c
    have hedge : (a, c) ∈ g.deps := hab
    have hmem : a ∈ allIds g := by
      have h2 := List.all_eq_true.1 hec (a, c) hedge
      rw [Bool.and_eq_true] at h2
      exact contains_iff.1 h2.1
    apply saturate_satClosed (allIds g) (depsOnAny g) seeds a hmem
    rw [depsOnAny, List.any_eq_true]
    refine ⟨(a, c), hedge, ?_⟩
    rw [Bool.and_eq_true]
    exact ⟨by simp, contains_iff.2 ih⟩

/-! ### Structure of compute_affected -/

theorem assembleResult_force_all (g : Graph) (cf excl : List String) (b : Bool) :
    (assembleResult g cf excl b).force_all = b := rfl

theorem assembleResult_changed_crates (g : Graph) (cf excl : List String) (b : Bool) :
    (assembleResult g cf excl b).changed_crates = sortNames
      ((((directIds g cf).filterMap (fun i => metadata g i)).filter
        (fun pkg => contains_name g pkg.name && !is_excluded pkg.name pkg.dir excl)).map
        Package.name) := rfl

theorem assembleResult_library (g : Graph) (cf excl : List String) (b : Bool) :
    (assembleResult g cf excl b).affected_library_members = sortNames
      (((membersOf g (affectedIds g b (directIds g cf))).filter
        (fun pkg => contains_name g pkg.name && !is_excluded pkg.name pkg.dir excl)).map
        Package.name) := rfl

theorem assembleResult_binary (g : Graph) (cf excl : List String) (b : Bool) :
    (assembleResult g cf excl b).affected_binary_members = sortNames
      (((membersOf g (affectedIds g b (directIds g cf))).filter
        (fun pkg => contains_name g pkg.name && !is_excluded pkg.name pkg.dir excl &&
          pkg.hasBinary)).map
        Package.name) := rfl

theorem compute_affected_ok {lib : GlobLib} {g : Graph} {cf trig excl : List String}
    {r : AffectedResult} (h : compute_affected lib g cf trig excl = .ok r) :
    (cf = [] ∧ r = ⟨false, [], [], []⟩) ∨
    (cf ≠ [] ∧ ∃ b, check_force_triggers lib cf trig = .ok b ∧
      r = assembleResult g cf excl b) := by
  by_cases hcf : cf = []
  · left
    refine ⟨hcf, ?_⟩
    subst hcf
    have h2 : (Except.ok ⟨false, [], [], []⟩ : Except String AffectedResult) = .ok r := by
      simpa [compute_affected] using h
    exact (Except.ok.inj h2).symm
  · right
    refine ⟨hcf, ?_⟩
    rw [compute_affected, if_neg (by simpa using hcf)] at h
    cases hchk : check_force_triggers lib cf trig with
    | error p =>
      rw [hchk] at h
      exact absurd h (by simp [Except.map])
    | ok b =>
      rw [hchk] at h
      simp only [Except.map] at h
      have hasm : assembleResult g cf excl b = r := Except.ok.inj h
      subst hasm
      exact ⟨b, rfl, rfl⟩

theorem mem_sortNames_filter_map {l : List Package} {p : Package → Bool} {n : String} :
    n ∈ sortNames ((l.filter p).map Package.name) ↔
      ∃ pkg, pkg ∈ l ∧ p pkg = true ∧ pkg.name = n := by
  rw [mem_sortNames, List.mem_map]
  constructor
  · rintro ⟨pkg, hmem, hname⟩
    obtain ⟨h1, h2⟩ := List.mem_filter.1 hmem
    exact ⟨pkg, h1, h2, hname⟩
  · rintro ⟨pkg, h1, h2, h3⟩
    exact ⟨pkg, List.mem_filter.2 ⟨h1, h2⟩, h3⟩

theorem mem_membersOf {g : Graph} {ids : List Nat} {pkg : Package} :
    pkg ∈ membersOf g ids ↔ pkg ∈ g.allPackages ∧ pkg.pid ∈ ids := by
  rw [membersOf, List.mem_filter, contains_iff]

theorem contains_name_of_mem {g : Graph} {w : Package} (hw : w ∈ g.workspace) :
    contains_name g w.name = true := by
  rw [contains_name, List.any_eq_true]
  exact ⟨w, hw, by simp⟩

theorem mem_workspace_of_contains_name {g : Graph} {pkg : Package}
    (hsep : namesSeparated g = true) (hmem : pkg ∈ g.allPackages)
    (hcn : contains_name g pkg.name = true) : pkg ∈ g.workspace := by
  rw [Graph.allPackages] at hmem
  rcases List.mem_append.1 hmem with h | h
  · exact h
  · have h2 := List.all_eq_true.1 hsep pkg h
    rw [Bool.not_eq_true'] at h2
    rw [h2] at hcn
    cases hcn

theorem find_pid_unique {l : List Package} (h : (l.map Package.pid).Nodup) {w : Package}
    (hw : w ∈ l) : l.find? (fun pkg => pkg.pid == w.pid) = some w := by
  induction l with
  | nil => cases hw
  | cons a l ih =>
    rcases List.mem_cons.1 hw with rfl | hw2
    · rw [List.find?_cons_of_pos _ (by simp)]
    · rw [List.map_cons, List.nodup_cons] at h
      have hne : (a.pid == w.pid) = false := by
        rw [beq_eq_false_iff_ne]
        intro heq
        apply h.1
        rw [heq]
        exact List.mem_map_of_mem Package.pid hw2
      rw [List.find?_cons_of_neg _ (by simp [hne])]
      exact ih h.2 hw2

theorem metadata_eq_self {g : Graph} (hid : (allIds g).Nodup) {w : Package}
    (hw : w ∈ g.allPackages) : metadata g w.pid = some w :=
  find_pid_unique hid hw

theorem filterMap_eq_self {l : List α} {f : α → Option α} (h : ∀ x ∈ l, f x = some x) :
    l.filterMap f = l := by
  induction l with
  | nil => rfl
  | cons a l ih =>
    rw [List.filterMap_cons, h a (List.mem_cons_self a l),
      ih (fun x hx => h x (List.mem_cons_of_mem a hx))]

theorem directIds_filterMap {g : Graph} {cf : List String} (hid : (allIds g).Nodup) :
    (directIds g cf).filterMap (fun i => metadata g i) =
      g.workspace.filter (fun pkg => cf.any (fun f => belongsToDir pkg.dir f)) := by
  rw [directIds, List.filterMap_map]
  apply filterMap_eq_self
  intro w hw
  apply metadata_eq_self hid
  rw [Graph.allPackages]
  exact List.mem_append_left _ (List.mem_filter.1 hw).1

theorem directIds_mono {g : Graph} {cf cf' : List String} (hsub : ∀ f ∈ cf, f ∈ cf')
    {i : Nat} (h : i ∈ directIds g cf) : i ∈ directIds g cf' := by
  rw [directIds, List.mem_map] at h ⊢
  obtain ⟨pkg, hmem, hpid⟩ := h
  obtain ⟨hw, hany⟩ := List.mem_filter.1 hmem
  obtain ⟨f, hf, hbel⟩ := List.any_eq_true.1 hany
  exact ⟨pkg, List.mem_filter.2 ⟨hw, List.any_eq_true.2 ⟨f, hsub f hf, hbel⟩⟩, hpid⟩

theorem check_force_triggers_mono {lib : GlobLib} {cf cf' trig : List String} {b b' : Bool}
    (hsub : ∀ f ∈ cf, f ∈ cf')
    (h : check_force_triggers lib cf trig = .ok b)
    (h' : check_force_triggers lib cf' trig = .ok b')
    (hb : b = true) : b' = true := by
  rw [check_force_triggers] at h h'
  by_cases htr : trig.isEmpty
  · rw [if_pos htr, hb] at h
    exact Bool.noConfusion (Except.ok.inj h)
  · rw [if_neg htr] at h h'
    cases hcomp : compileTriggers lib trig with
    | error p =>
      rw [hcomp] at h
      exact Except.noConfusion h
    | ok ms =>
      rw [hcomp] at h h'
      rw [← Except.ok.inj h']
      rw [← Except.ok.inj h] at hb
      obtain ⟨f, hf, hm⟩ := List.any_eq_true.1 hb
      exact List.any_eq_true.2 ⟨f, hsub f hf, hm⟩

/-! ### Claims about the change mapper, the exclusion filter and the matcher -/

theorem compileTriggers_ok_match {lib : GlobLib} :
    ∀ {trig : List String} {ms : List (String → Bool)},
      compileTriggers lib trig = .ok ms → ∀ f : String,
        (ms.any (fun m => m f) = true ↔
          ∃ t ∈ trig, ∃ m, lib.compile (normalizeTrigger t) = some m ∧ m f = true)
  | [], ms, h, f => by
    rw [compileTriggers] at h
    rw [← Except.ok.inj h]
    simp
  | t :: ts, ms, h, f => by
    rw [compileTriggers] at h
    cases hc : lib.compile (normalizeTrigger t) with
    | none => rw [hc] at h; exact Except.noConfusion h
    | some m =>
      rw [hc] at h
      cases hrec : compileTriggers lib ts with
      | error p => rw [hrec] at h; exact Except.noConfusion h
      | ok ms2 =>
        rw [hrec] at h
        rw [← Except.ok.inj h, List.any_cons]
        have ih := compileTriggers_ok_match hrec f
        constructor
        · intro hor
          rcases (Bool.or_eq_true _ _).mp hor with h1 | h2
          · exact ⟨t, List.mem_cons_self t ts, m, hc, h1⟩
          · obtain ⟨t2, ht2, m2, hm2, hf2⟩ := ih.1 h2
            exact ⟨t2, List.mem_cons_of_mem t ht2, m2, hm2, hf2⟩
        · rintro ⟨t2, ht2, m2, hm2, hf2⟩
          rcases List.mem_cons.1 ht2 with rfl | ht3
          · apply (Bool.or_eq_true _ _).mpr
            left
            rw [hc] at hm2
            rw [Option.some.inj hm2]
            exact hf2
          · exact (Bool.or_eq_true _ _).mpr (Or.inr (ih.2 ⟨t2, ht3, m2, hm2, hf2⟩))

/-- C6: `check_force_triggers` answers `false` on an empty trigger list for
every glob library (so even one on which every compilation would fail: no
compilation is attempted); on a non-empty list it succeeds with `true` exactly
when some changed file matches some compiled normalized pattern; and
normalization appends the recursive wildcard exactly to the patterns ending in
`/`. -/
theorem check_force_triggers_spec :
    (∀ (lib : GlobLib) (cf : List String), check_force_triggers lib cf [] = .ok false) ∧
    (∀ (lib : GlobLib) (cf trig : List String) (b : Bool),
        check_force_triggers lib cf trig = .ok b →
          (b = true ↔ ∃ f ∈ cf, ∃ t ∈ trig, ∃ m,
            lib.compile (normalizeTrigger t) = some m ∧ m f = true)) ∧
    normalizeTrigger "infra/" = "infra/**" ∧
    (∀ t : String, strEndsWithSlash t = false → normalizeTrigger t = t) := by
  refine ⟨fun lib cf => rfl, ?_, by decide, ?_⟩
  · intro lib cf trig b h
    by_cases htr : trig.isEmpty
    · rw [check_force_triggers, if_pos htr] at h
      have hb : false = b := Except.ok.inj h
      rw [List.isEmpty_iff] at htr
      subst htr
      simp [← hb]
    · rw [check_force_triggers, if_neg htr] at h
      cases hcomp : compileTriggers lib trig with
      | error p => rw [hcomp] at h; exact Except.noConfusion h
      | ok ms =>
        rw [hcomp] at h
        rw [← Except.ok.inj h, List.any_eq_true]
        constructor
        · rintro ⟨f, hf, hany⟩
          exact ⟨f, hf, (compileTriggers_ok_match hcomp f).1 hany⟩
        · rintro ⟨f, hf, hex⟩
          exact ⟨f, hf, (compileTriggers_ok_match hcomp f).2 hex⟩
  · intro t ht
    rw [normalizeTrigger, if_neg (by simp [ht])]

/-- Witness for C6 at a concrete input: the `infra/` trigger (normalized to
`infra/**`) fires on `infra/deploy.yml`. -/
theorem check_force_triggers_spec_witness :
    true = true ↔ ∃ f ∈ ["infra/deploy.yml"], ∃ t ∈ ["infra/"], ∃ m,
      specGlobLib.compile (normalizeTrigger t) = some m ∧ m f = true :=
  check_force_triggers_spec.2.1 specGlobLib ["infra/deploy.yml"] ["infra/"] true rfl

/-- C7: a package is excluded exactly when some path rule (an entry containing
`/`), stripped of one trailing `/`, equals its relative directory or is a
directory-boundary prefix of it, or some name rule (an entry without `/`)
equals its name; with the boundary behaviour on concrete inputs: `tools/`
excludes `tools/x` but not `tools-other/x`, and `lib-core/` does not exclude
the directory `lib-core-ext`. -/
theorem is_excluded_spec :
    (∀ (nm dir : String) (excl : List String),
        is_excluded nm dir excl = true ↔
          ((∃ e ∈ excl, strContainsSlash e = true ∧
              (dir = stripTrailingSlash e ∨
                strStartsWith dir (stripTrailingSlash e ++ "/") = true)) ∨
            (∃ e ∈ excl, strContainsSlash e = false ∧ nm = e))) ∧
    is_excluded "x" "tools/x" ["tools/"] = true ∧
    is_excluded "x" "tools-other/x" ["tools/"] = false ∧
    is_excluded "lib-core-ext" "lib-core-ext" ["lib-core/"] = false ∧
    is_excluded "lib-core" "lib-core" ["lib-core/"] = true ∧
    is_excluded "resource-clone" "tools/resource-clone" ["resource-clone"] = true := by
  refine ⟨?_, by decide, by decide, by decide, by decide, by decide⟩
  intro nm dir excl
  rw [is_excluded, List.any_eq_true]
  constructor
  · rintro ⟨e, he, hcond⟩
    by_cases hs : strContainsSlash e = true
    · rw [if_pos hs] at hcond
      rcases (Bool.or_eq_true _ _).mp hcond with h1 | h2
      · exact Or.inl ⟨e, he, hs, Or.inl (by simpa using h1)⟩
      · exact Or.inl ⟨e, he, hs, Or.inr h2⟩
    · rw [Bool.not_eq_true] at hs
      rw [if_neg (by simp [hs])] at hcond
      exact Or.inr ⟨e, he, hs, by simpa using hcond⟩
  · rintro (⟨e, he, hs, hor⟩ | ⟨e, he, hs, heq⟩)
    · refine ⟨e, he, ?_⟩
      rw [if_pos hs]
      rcases hor with h1 | h2
      · exact (Bool.or_eq_true _ _).mpr (Or.inl (by simp [h1]))
      · exact (Bool.or_eq_true _ _).mpr (Or.inr h2)
    · refine ⟨e, he, ?_⟩
      rw [if_neg (by simp [hs])]
      simp [heq]

/-- C5: a workspace package is a direct id exactly when some changed file
path, read as its component sequence, starts with the package's
relative-directory component sequence; the match is component-wise, not a raw
string prefix: `lib-core` is a string prefix of `lib-core-ext/src/lib.rs` but
the file does not belong to it. -/
theorem change_mapper_spec :
    (∀ (g : Graph) (cf : List String) (i : Nat),
        i ∈ directIds g cf ↔
          ∃ pkg ∈ g.workspace, pkg.pid = i ∧
            ∃ f ∈ cf, pathComponents pkg.dir <+: pathComponents f) ∧
    belongsToDir "lib-core" "lib-core-ext/src/lib.rs" = false ∧
    strStartsWith "lib-core-ext/src/lib.rs" "lib-core" = true ∧
    belongsToDir "lib-core-ext" "lib-core-ext/src/lib.rs" = true := by
  refine ⟨?_, by decide, by decide, by decide⟩
  intro g cf i
  rw [directIds, List.mem_map]
  constructor
  · rintro ⟨pkg, hmem, hpid⟩
    obtain ⟨hw, hany⟩ := List.mem_filter.1 hmem
    obtain ⟨f, hf, hbel⟩ := List.any_eq_true.1 hany
    rw [belongsToDir] at hbel
    exact ⟨pkg, hw, hpid, f, hf, List.isPrefixOf_iff_prefix.1 hbel⟩
  · rintro ⟨pkg, hw, hpid, f, hf, hpre⟩
    refine ⟨pkg, List.mem_filter.2 ⟨hw, List.any_eq_true.2 ⟨f, hf, ?_⟩⟩, hpid⟩
    rw [belongsToDir]
    exact List.isPrefixOf_iff_prefix.2 hpre

theorem compileTriggers_error_of_mem {lib : GlobLib} :
    ∀ {trig : List String} {t : String}, t ∈ trig →
      lib.compile (normalizeTrigger t) = none →
      ∃ p, compileTriggers lib trig = .error p
  | [], t, ht, _ => absurd ht (List.not_mem_nil t)
  | a :: ts, t, ht, hnone => by
    rw [compileTriggers]
    cases hc : lib.compile (normalizeTrigger a) with
    | none => exact ⟨normalizeTrigger a, rfl⟩
    | some m =>
      rcases List.mem_cons.1 ht with rfl | ht2
      · rw [hc] at hnone
        exact Option.noConfusion hnone
      · obtain ⟨p, hp⟩ := compileTriggers_error_of_mem ht2 hnone
        rw [hp]
        exact ⟨p, rfl⟩

/-- C9: when some trigger pattern fails to compile after normalization, the
matcher reports the compilation error of a pattern uniformly for every changed
file list (so before any matching, never silently skipping it), and
`compute_affected` with a non-empty changed list surfaces the same error. -/
theorem malformed_trigger_fails {lib : GlobLib} {trig : List String}
    (h : ∃ t ∈ trig, lib.compile (normalizeTrigger t) = none) :
    ∃ p, (∀ cf : List String, check_force_triggers lib cf trig = .error p) ∧
      (∀ (g : Graph) (cf excl : List String), cf ≠ [] →
        compute_affected lib g cf trig excl = .error p) := by
  obtain ⟨t, ht, hnone⟩ := h
  obtain ⟨p, hp⟩ := compileTriggers_error_of_mem ht hnone
  have htr : trig.isEmpty = false := by
    rw [List.isEmpty_eq_false]
    exact List.ne_nil_of_mem ht
  refine ⟨p, ?_, ?_⟩
  · intro cf
    rw [check_force_triggers, if_neg (by simp [htr]), hp]
  · intro g cf excl hcf
    rw [compute_affected, if_neg (by simpa using hcf), check_force_triggers,
      if_neg (by simp [htr]), hp]
    rfl

/-- Witness for C9: on a glob library rejecting every pattern, the single
trigger `a` makes both functions fail for every input. -/
theorem malformed_trigger_fails_witness :
    ∃ p, (∀ cf : List String, check_force_triggers failGlobLib cf ["a"] = .error p) ∧
      (∀ (g : Graph) (cf excl : List String), cf ≠ [] →
        compute_affected failGlobLib g cf ["a"] excl = .error p) :=
  malformed_trigger_fails ⟨"a", List.mem_singleton.2 rfl, rfl⟩

deriving instance DecidableEq for Except

theorem is_excluded_cons_name {nm dir e : String} {excl : List String}
    (he : strContainsSlash e = false) (hne : nm ≠ e) :
    is_excluded nm dir (e :: excl) = is_excluded nm dir excl := by
  rw [is_excluded, is_excluded, List.any_cons]
  rw [if_neg (by simp [he])]
  have h2 : (nm == e) = false := beq_eq_false_iff_ne.2 hne
  rw [h2, Bool.false_or]

theorem mem_sortNames_congr {l : List Package} {p q : Package → Bool} {n : String}
    (h : ∀ pkg : Package, pkg.name = n → p pkg = q pkg) :
    (n ∈ sortNames ((l.filter p).map Package.name) ↔
      n ∈ sortNames ((l.filter q).map Package.name)) := by
  rw [mem_sortNames_filter_map, mem_sortNames_filter_map]
  constructor
  · rintro ⟨pkg, h1, h2, h3⟩
    refine ⟨pkg, h1, ?_, h3⟩
    rw [← h pkg h3]
    exact h2
  · rintro ⟨pkg, h1, h2, h3⟩
    refine ⟨pkg, h1, ?_, h3⟩
    rw [h pkg h3]
    exact h2

/-- C1: adding a name-rule exclusion entry `e` changes none of the three
output lists at any name `n ≠ e`: exclusion only hides the excluded name from
the output and never removes an excluded package's dependents from the
affected set, because the resolved affected ids do not depend on the exclusion
set at all. -/
theorem exclusion_only_hides_names {lib : GlobLib} {g : Graph}
    {cf trig excl : List String} {e n : String} {r r2 : AffectedResult}
    (he : strContainsSlash e = false) (hn : n ≠ e)
    (hr : compute_affected lib g cf trig excl = .ok r)
    (hr2 : compute_affected lib g cf trig (e :: excl) = .ok r2) :
    (n ∈ r.changed_crates ↔ n ∈ r2.changed_crates) ∧
    (n ∈ r.affected_library_members ↔ n ∈ r2.affected_library_members) ∧
    (n ∈ r.affected_binary_members ↔ n ∈ r2.affected_binary_members) := by
  rcases compute_affected_ok hr with ⟨hcf, hre⟩ | ⟨hcf, b, hchk, hre⟩
  · rcases compute_affected_ok hr2 with ⟨_, hre2⟩ | ⟨hcf2, _⟩
    · subst hre
      subst hre2
      exact ⟨Iff.rfl, Iff.rfl, Iff.rfl⟩
    · exact absurd hcf hcf2
  · rcases compute_affected_ok hr2 with ⟨hcf2, _⟩ | ⟨_, b2, hchk2, hre2⟩
    · exact absurd hcf2 hcf
    · have hb : b = b2 := Except.ok.inj (hchk.symm.trans hchk2)
      subst hb
      subst hre
      subst hre2
      rw [assembleResult_changed_crates, assembleResult_changed_crates,
        assembleResult_library, assembleResult_library,
        assembleResult_binary, assembleResult_binary]
      refine ⟨mem_sortNames_congr ?_, mem_sortNames_congr ?_, mem_sortNames_congr ?_⟩ <;>
        intro pkg hname <;>
        rw [is_excluded_cons_name he (by rw [hname]; exact hn)]

/-- Witness for C1 on the two-member chain: excluding `liba` keeps its
dependent `appb` in every list it was in. -/
theorem exclusion_only_hides_names_witness :
    (("appb" : String) ∈ ["liba"] ↔ ("appb" : String) ∈ ([] : List String)) ∧
    (("appb" : String) ∈ ["appb", "liba"] ↔ ("appb" : String) ∈ ["appb"]) ∧
    (("appb" : String) ∈ ["appb"] ↔ ("appb" : String) ∈ ["appb"]) :=
  @exclusion_only_hides_names specGlobLib gChain ["liba/src/lib.rs"] [] [] "liba" "appb"
    ⟨false, ["liba"], ["appb", "liba"], ["appb"]⟩ ⟨false, [], ["appb"], ["appb"]⟩
    (by decide) (by decide) (by decide) (by decide)

/-- C4: with force-all off, the affected id set is exactly the reverse
transitive closure of the direct ids: an id is affected precisely when it is
directly changed or transitively depends on a directly changed package (the
closure contains its seeds). -/
theorem affected_is_reverse_closure {g : Graph} {cf : List String}
    (hec : edgesClosed g = true) (p : Nat) :
    p ∈ affectedIds g false (directIds g cf) ↔
      (p ∈ directIds g cf ∨
        ∃ q ∈ directIds g cf, Relation.TransGen (dependsOn g) p q) := by
  have hrw : affectedIds g false (directIds g cf) = reverseClosure g (directIds g cf) := rfl
  rw [hrw]
  constructor
  · intro h
    obtain ⟨q, hq, hpath⟩ := reverseClosure_sound h
    rcases Relation.reflTransGen_iff_eq_or_transGen.1 hpath with heq | htg
    · left
      rw [heq] at hq
      exact hq
    · exact Or.inr ⟨q, hq, htg⟩
  · rintro (h | ⟨q, hq, htg⟩)
    · exact subset_saturate h
    · exact reverseClosure_complete hec hq htg.to_reflTransGen

/-- Witness for C4: on the chain graph, id 2 (`appb`) is affected by a change
to `liba` exactly by the closure characterization. -/
theorem affected_is_reverse_closure_witness :
    edgesClosed gChain = true ∧
    (2 ∈ affectedIds gChain false (directIds gChain ["liba/src/lib.rs"]) ↔
      (2 ∈ directIds gChain ["liba/src/lib.rs"] ∨
        ∃ q ∈ directIds gChain ["liba/src/lib.rs"],
          Relation.TransGen (dependsOn gChain) 2 q)) :=
  ⟨by decide, affected_is_reverse_closure (by decide) 2⟩

/-- C10: a workspace member living in the workspace root itself (empty
relative directory) is direct for every non-empty changed list — every path
component sequence extends the empty one — and so appears in `changedCrates`
and `affectedLibraryMembers` unless an exclusion rule removes it. -/
theorem root_member_always_direct {lib : GlobLib} {g : Graph}
    {cf trig excl : List String} {r : AffectedResult} {m : Package}
    (hid : (allIds g).Nodup) (hm : m ∈ g.workspace) (hdir : m.dir = "")
    (hcf : cf ≠ []) (hexcl : is_excluded m.name m.dir excl = false)
    (hr : compute_affected lib g cf trig excl = .ok r) :
    m.pid ∈ directIds g cf ∧ m.name ∈ r.changed_crates ∧
      m.name ∈ r.affected_library_members := by
  obtain ⟨f, hf⟩ := List.exists_mem_of_ne_nil cf hcf
  have hbel : belongsToDir m.dir f = true := by
    rw [belongsToDir, hdir]
    apply List.isPrefixOf_iff_prefix.2
    have h0 : pathComponents "" = [] := rfl
    rw [h0]
    exact List.nil_prefix
  have hdirect : m.pid ∈ directIds g cf := by
    rw [directIds, List.mem_map]
    exact ⟨m, List.mem_filter.2 ⟨hm, List.any_eq_true.2 ⟨f, hf, hbel⟩⟩, rfl⟩
  rcases compute_affected_ok hr with ⟨hcf2, _⟩ | ⟨_, b, hchk, hre⟩
  · exact absurd hcf2 hcf
  · subst hre
    have hpred : (contains_name g m.name && !is_excluded m.name m.dir excl) = true := by
      rw [contains_name_of_mem hm, hexcl]
      rfl
    refine ⟨hdirect, ?_, ?_⟩
    · rw [assembleResult_changed_crates, mem_sortNames_filter_map]
      refine ⟨m, ?_, hpred, rfl⟩
      rw [List.mem_filterMap]
      refine ⟨m.pid, hdirect, ?_⟩
      apply metadata_eq_self hid
      rw [Graph.allPackages]
      exact List.mem_append_left _ hm
    · rw [assembleResult_library, mem_sortNames_filter_map]
      refine ⟨m, ?_, hpred, rfl⟩
      rw [mem_membersOf]
      refine ⟨by rw [Graph.allPackages]; exact List.mem_append_left _ hm, ?_⟩
      cases b with
      | false => exact subset_saturate hdirect
      | true => exact subset_saturate (List.mem_map_of_mem Package.pid hm)

/-- Witness for C10 on the root-directory workspace: changing `README.md`
marks the root member `rootcrate` as directly changed and affected. -/
theorem root_member_always_direct_witness :
    1 ∈ directIds gRoot ["README.md"] ∧
    ("rootcrate" : String) ∈ ["rootcrate"] ∧
    ("rootcrate" : String) ∈ ["rootcrate"] :=
  @root_member_always_direct specGlobLib gRoot ["README.md"] [] []
    ⟨false, ["rootcrate"], ["rootcrate"], []⟩ ⟨1, "rootcrate", "", false⟩
    (by decide) (by decide) rfl (by decide) (by decide) (by decide)

/-! ### Force-all, duplicates, monotonicity -/

/-- C2 (amended): whenever the result has `force_all = true` and no package
outside the workspace shares a workspace member's name, the affected library
list holds exactly the names of the non-excluded workspace members, whatever
the changed files touched. -/
theorem force_all_lists_members {lib : GlobLib} {g : Graph}
    {cf trig excl : List String} {r : AffectedResult}
    (hsep : namesSeparated g = true)
    (hr : compute_affected lib g cf trig excl = .ok r)
    (hforce : r.force_all = true) (n : String) :
    n ∈ r.affected_library_members ↔
      ∃ w ∈ g.workspace, is_excluded w.name w.dir excl = false ∧ w.name = n := by
  rcases compute_affected_ok hr with ⟨_, hre⟩ | ⟨_, b, hchk, hre⟩
  · rw [hre] at hforce
    exact Bool.noConfusion hforce
  · subst hre
    rw [assembleResult_force_all] at hforce
    subst hforce
    rw [assembleResult_library, mem_sortNames_filter_map]
    constructor
    · rintro ⟨pkg, hmem, hp, hname⟩
      rw [mem_membersOf] at hmem
      rw [Bool.and_eq_true, Bool.not_eq_true'] at hp
      exact ⟨pkg, mem_workspace_of_contains_name hsep hmem.1 hp.1, hp.2, hname⟩
    · rintro ⟨w, hw, hexcl, hname⟩
      refine ⟨w, ?_, ?_, hname⟩
      · rw [mem_membersOf]
        refine ⟨by rw [Graph.allPackages]; exact List.mem_append_left _ hw, ?_⟩
        exact subset_saturate (List.mem_map_of_mem Package.pid hw)
      · rw [Bool.and_eq_true, Bool.not_eq_true']
        exact ⟨contains_name_of_mem hw, hexcl⟩

/-- C2 counterexample: in `gShadow` the only workspace member (`app`, living
under `tools/app`) is excluded by the path rule `tools/`, yet under force-all
the registry package of the same name keeps `app` in
`affectedLibraryMembers`, which therefore differs from the (empty) set of
non-excluded member names. -/
theorem force_all_lists_members_counterexample :
    compute_affected specGlobLib gShadow ["x"] ["x"] ["tools/"] =
      .ok ⟨true, [], ["app"], []⟩ ∧
    ¬ ∃ w ∈ gShadow.workspace, is_excluded w.name w.dir ["tools/"] = false ∧
      w.name = "app" :=
  ⟨by decide, by decide⟩

/-- Witness for the amended C2 on the clean chain graph. -/
theorem force_all_lists_members_witness :
    ("appb" : String) ∈ ["appb", "liba"] ↔
      ∃ w ∈ gChain.workspace, is_excluded w.name w.dir [] = false ∧ w.name = "appb" :=
  @force_all_lists_members specGlobLib gChain ["x"] ["x"] []
    ⟨true, [], ["appb", "liba"], ["appb"]⟩ (by decide) (by decide) rfl "appb"

theorem allPackages_nodup {g : Graph} (hid : (allIds g).Nodup) : g.allPackages.Nodup :=
  List.Nodup.of_map Package.pid hid

theorem nodup_member_names {g : Graph} {l : List Package}
    (hwn : (g.workspace.map Package.name).Nodup) (hsep : namesSeparated g = true)
    (hnd : l.Nodup) (hall : ∀ pkg ∈ l, pkg ∈ g.allPackages)
    (hcn : ∀ pkg ∈ l, contains_name g pkg.name = true) :
    (l.map Package.name).Nodup := by
  apply List.Nodup.map_on ?_ hnd
  intro x hx y hy hxy
  have hxw : x ∈ g.workspace := mem_workspace_of_contains_name hsep (hall x hx) (hcn x hx)
  have hyw : y ∈ g.workspace := mem_workspace_of_contains_name hsep (hall y hy) (hcn y hy)
  exact List.inj_on_of_nodup_map hwn hxw hyw hxy

theorem affected_names_nodup {g : Graph} {ids : List Nat} {q : Package → Bool}
    (hid : (allIds g).Nodup) (hwn : (g.workspace.map Package.name).Nodup)
    (hsep : namesSeparated g = true)
    (hq : ∀ pkg : Package, q pkg = true → contains_name g pkg.name = true) :
    (((membersOf g ids).filter q).map Package.name).Nodup := by
  apply nodup_member_names hwn hsep
  · exact ((List.filter_sublist _).trans (List.filter_sublist _)).nodup
      (allPackages_nodup hid)
  · intro pkg hp
    exact (List.mem_filter.1 (List.mem_filter.1 hp).1).1
  · intro pkg hp
    exact hq pkg (List.mem_filter.1 hp).2

/-- C3 (amended): all three output lists are always sorted ascending in the
case-sensitive lexicographic order; when package ids are globally unique,
workspace member names are unique, and no package outside the workspace
shares a member's name, they also contain no duplicate entries. -/
theorem output_lists_sorted_nodup {lib : GlobLib} {g : Graph}
    {cf trig excl : List String} {r : AffectedResult}
    (hid : (allIds g).Nodup) (hwn : (g.workspace.map Package.name).Nodup)
    (hsep : namesSeparated g = true)
    (hr : compute_affected lib g cf trig excl = .ok r) :
    (List.Sorted (fun a b => strLeB a b = true) r.changed_crates ∧
      r.changed_crates.Nodup) ∧
    (List.Sorted (fun a b => strLeB a b = true) r.affected_library_members ∧
      r.affected_library_members.Nodup) ∧
    (List.Sorted (fun a b => strLeB a b = true) r.affected_binary_members ∧
      r.affected_binary_members.Nodup) := by
  rcases compute_affected_ok hr with ⟨_, hre⟩ | ⟨_, b, _, hre⟩
  · subst hre
    exact ⟨⟨List.sorted_nil, List.nodup_nil⟩, ⟨List.sorted_nil, List.nodup_nil⟩,
      ⟨List.sorted_nil, List.nodup_nil⟩⟩
  · subst hre
    rw [assembleResult_changed_crates, assembleResult_library, assembleResult_binary]
    refine ⟨⟨sortNames_sorted _, sortNames_nodup ?_⟩,
      ⟨sortNames_sorted _, sortNames_nodup ?_⟩,
      ⟨sortNames_sorted _, sortNames_nodup ?_⟩⟩
    · rw [directIds_filterMap hid]
      exact (((List.filter_sublist _).trans (List.filter_sublist _)).map
        Package.name).nodup hwn
    · exact affected_names_nodup hid hwn hsep
        (fun pkg hp => ((Bool.and_eq_true _ _).mp hp).1)
    · exact affected_names_nodup hid hwn hsep
        (fun pkg hp => ((Bool.and_eq_true _ _).mp ((Bool.and_eq_true _ _).mp hp).1).1)

/-- C3 counterexample: with a registry package named like the unique member,
`affectedLibraryMembers` comes out as the duplicated list. -/
theorem output_lists_sorted_nodup_counterexample :
    compute_affected specGlobLib gDup ["x"] ["x"] [] =
      .ok ⟨true, [], ["app", "app"], []⟩ ∧
    ¬ (["app", "app"] : List String).Nodup :=
  ⟨by decide, by decide⟩

/-- Witness for the amended C3 on the chain graph. -/
theorem output_lists_sorted_nodup_witness :
    (List.Sorted (fun a b => strLeB a b = true) ["liba"] ∧
      (["liba"] : List String).Nodup) ∧
    (List.Sorted (fun a b => strLeB a b = true) ["appb", "liba"] ∧
      (["appb", "liba"] : List String).Nodup) ∧
    (List.Sorted (fun a b => strLeB a b = true) ["appb"] ∧
      (["appb"] : List String).Nodup) :=
  @output_lists_sorted_nodup specGlobLib gChain ["liba/src/lib.rs"] [] []
    ⟨false, ["liba"], ["appb", "liba"], ["appb"]⟩
    (by decide) (by decide) (by decide) (by decide)

/-- C8 (amended): enlarging the changed file list never removes a name from
`affectedLibraryMembers`, provided graph edges join graph packages and no
package outside the workspace shares a workspace member's name. -/
theorem affected_monotone {lib : GlobLib} {g : Graph}
    {cf cf2 trig excl : List String} {r r2 : AffectedResult}
    (hsep : namesSeparated g = true) (hec : edgesClosed g = true)
    (hsub : ∀ f ∈ cf, f ∈ cf2)
    (hr : compute_affected lib g cf trig excl = .ok r)
    (hr2 : compute_affected lib g cf2 trig excl = .ok r2) :
    ∀ n ∈ r.affected_library_members, n ∈ r2.affected_library_members := by
  rcases compute_affected_ok hr with ⟨hcf, hre⟩ | ⟨hcf, b, hchk, hre⟩
  · subst hre
    intro n hn
    exact absurd hn (List.not_mem_nil n)
  · rcases compute_affected_ok hr2 with ⟨hcf2, _⟩ | ⟨_, b2, hchk2, hre2⟩
    · obtain ⟨f, hf⟩ := List.exists_mem_of_ne_nil cf hcf
      have hf2 := hsub f hf
      rw [hcf2] at hf2
      exact absurd hf2 (List.not_mem_nil f)
    · subst hre
      subst hre2
      intro n hn
      rw [assembleResult_library, mem_sortNames_filter_map] at hn
      obtain ⟨pkg, hmem, hp, hname⟩ := hn
      rw [mem_membersOf] at hmem
      rw [assembleResult_library, mem_sortNames_filter_map]
      refine ⟨pkg, ?_, hp, hname⟩
      rw [mem_membersOf]
      refine ⟨hmem.1, ?_⟩
      have hcn : contains_name g pkg.name = true := ((Bool.and_eq_true _ _).mp hp).1
      cases b2 with
      | true =>
        exact subset_saturate (List.mem_map_of_mem Package.pid
          (mem_workspace_of_contains_name hsep hmem.1 hcn))
      | false =>
        have hb : b = false := by
          cases hbv : b with
          | false => rfl
          | true =>
            rw [hbv] at hchk
            exact Bool.noConfusion (check_force_triggers_mono hsub hchk hchk2 rfl)
        rw [hb] at hmem
        obtain ⟨q, hq, hpath⟩ := reverseClosure_sound hmem.2
        exact reverseClosure_complete hec (directIds_mono hsub hq) hpath

/-- C8 counterexample: in `gMono`, changing `w` alone reports the registry
dependent `foo` in `affectedLibraryMembers`; also touching the trigger file
`infra/x` flips force-all, the registry package is no longer in the
(forward) resolution and the member `foo` is path-excluded, so the name
`foo` disappears although the changed set only grew. -/
theorem affected_monotone_counterexample :
    compute_affected specGlobLib gMono ["w/a.rs"] ["infra/x"] ["tools/"] =
      .ok ⟨false, ["w"], ["foo", "w"], []⟩ ∧
    compute_affected specGlobLib gMono ["w/a.rs", "infra/x"] ["infra/x"] ["tools/"] =
      .ok ⟨true, ["w"], ["w"], []⟩ ∧
    (["w/a.rs", "infra/x"] : List String) = ["w/a.rs"] ++ ["infra/x"] ∧
    ("foo" : String) ∈ ["foo", "w"] ∧ ("foo" : String) ∉ (["w"] : List String) :=
  ⟨by decide, by decide, rfl, by decide, by decide⟩

/-- Witness for the amended C8 on the chain graph, applied at the name
`liba`. -/
theorem affected_monotone_witness :
    ("liba" : String) ∈ (["appb", "liba"] : List String) :=
  @affected_monotone specGlobLib gChain ["liba/src/lib.rs"]
    ["liba/src/lib.rs", "zzz.txt"] [] []
    ⟨false, ["liba"], ["appb", "liba"], ["appb"]⟩
    ⟨false, ["liba"], ["appb", "liba"], ["appb"]⟩
    (by decide) (by decide) (by decide) (by decide) (by decide) "liba" (by decide)

end RustAffected
